import Mathlib

set_option maxHeartbeats 1000000

/-!
Shallow embedding of `poetry_scripts.py` (developer-workflow helper commands).

Python strings are modelled as `List Char` (Python `str.split`, `str.startswith`,
`str.endswith` become `List.splitOn`, `List.isPrefixOf`, `List.isSuffixOf`, whose
semantics coincide on these inputs).  External processes are modelled by a trace
of launched commands together with an environment assigning an exit code to each
launch; a `CalledProcessError` raised by `subprocess.run(check=True)` aborts the
remainder of the enclosing operation, modelled by the `ok` flag.  The filesystem
under the current working directory is modelled as a finite tree of named files
and directories.
-/

/-! ## run_example (lines 96-120): ad-hoc flag parsing -/

/-- Resolved parameters of the example analysis (locals `ticker`, `period`,
`strategy` of `run_example`). -/
structure ExampleParams where
  ticker : List Char
  period : List Char
  strategy : List Char
deriving DecidableEq, Repr

/-- Defaults assigned at lines 98-100: `MSFT`, `day`, `simple`. -/
def exampleDefaults : ExampleParams :=
  { ticker := "MSFT".toList, period := "day".toList, strategy := "simple".toList }

/-- One iteration of the `for arg in args` loop (lines 104-110).
Python `arg.split("=")[1]` splits on every `"="` and indexes position 1;
the indexing raises `IndexError` when the split has fewer than two parts,
modelled by `Option` (`none` = the loop raises). -/
def parseArg (p : ExampleParams) (arg : List Char) : Option ExampleParams :=
  if ("--ticker=".toList).isPrefixOf arg then
    ((arg.splitOn '=')[1]?).map (fun v => { p with ticker := v })
  else if ("--period=".toList).isPrefixOf arg then
    ((arg.splitOn '=')[1]?).map (fun v => { p with period := v })
  else if ("--strategy=".toList).isPrefixOf arg then
    ((arg.splitOn '=')[1]?).map (fun v => { p with strategy := v })
  else
    some p

/-- Argument resolution of `run_example` (lines 96-110): start from the
defaults and run the parsing loop over `args`.  The Python guard `if args:`
skips the loop for an empty list, which leaves the defaults, exactly as the
fold does. -/
def run_example_parse (args : List (List Char)) : Option ExampleParams :=
  if args.isEmpty then some exampleDefaults
  else args.foldlM parseArg exampleDefaults

/-- Wording of the specification for claim C1: "the value is everything after
the first `=` in the token".  This definition follows the spec sentence, not
the code; it is compared against what the code computes. -/
def afterFirstEq (arg : List Char) : List Char :=
  (arg.dropWhile (fun c => !(c == '='))).drop 1

/-! ## subprocess orchestration: run_format, run_lint, run_verify -/

/-- An argv vector handed to `subprocess.run`. -/
abbrev Cmd := List (List Char)

def autoflakeCmd : Cmd :=
  ["autoflake", "--recursive", "--remove-all-unused-imports",
   "--remove-unused-variables", "--in-place", "stonkwise", "tests"].map String.toList

def blackCmd : Cmd := ["black", "stonkwise", "tests"].map String.toList

def isortCmd : Cmd := ["isort", "stonkwise", "tests"].map String.toList

def flake8Cmd : Cmd := ["flake8", "stonkwise", "tests"].map String.toList

def mypyCmd : Cmd := ["mypy", "stonkwise"].map String.toList

def poetryBuildCmd : Cmd := ["poetry", "build"].map String.toList

/-- Execution state of one operation: the commands launched so far, in order,
and whether no `CalledProcessError` has been raised yet. -/
structure ExecState where
  trace : List Cmd
  ok : Bool
deriving DecidableEq, Repr

/-- Model of `subprocess.run(cmd, check=check)`.  The environment `env` gives
the exit code of the i-th launched process.  When a previous `check=True` call
already raised, control never reaches this statement (`s` is returned
unchanged); otherwise the process is launched (appended to the trace) and,
with `check=True`, a non-zero exit code raises `CalledProcessError`. -/
def subprocess_run (env : Nat → Int) (cmd : Cmd) (check : Bool) (s : ExecState) : ExecState :=
  if s.ok then
    { trace := s.trace ++ [cmd], ok := !(check && env s.trace.length != 0) }
  else s

/-- Model of `run_format` (lines 12-31): autoflake, black, isort, each with
`check=True`. -/
def run_format (env : Nat → Int) (s : ExecState) : ExecState :=
  subprocess_run env isortCmd true
    (subprocess_run env blackCmd true
      (subprocess_run env autoflakeCmd true s))

/-- Model of `run_lint` (lines 34-42): flake8 then mypy, each with
`check=False`. -/
def run_lint (env : Nat → Int) (s : ExecState) : ExecState :=
  subprocess_run env mypyCmd false
    (subprocess_run env flake8Cmd false s)

/-- Model of `run_verify` (lines 123-139): `run_format`, then `run_lint`,
then `poetry build` with `check=False`. -/
def run_verify (env : Nat → Int) (s : ExecState) : ExecState :=
  subprocess_run env poetryBuildCmd false
    (run_lint env
      (run_format env s))

/-! ## run_clean (lines 55-93): workspace cleanup -/

/-- An entry of the filesystem tree: a plain file or a directory with its
children. -/
inductive Entry where
  | file (name : List Char) : Entry
  | dir (name : List Char) (children : List Entry) : Entry

/-- Name of an entry. -/
def Entry.name : Entry → List Char
  | .file n => n
  | .dir n _ => n

/-- Kind of an entry (`os.path.isdir` on an existing path). -/
def isDirEntry : Entry → Bool
  | .file _ => false
  | .dir _ _ => true

/-- POSIX path semantics for the top-level target strings: a trailing slash is
stripped for the name lookup but restricts the path to directories (stat of
`"build/"` fails when `build` is a regular file). -/
def splitSlash (p : List Char) : List Char × Bool :=
  if (['/']).isSuffixOf p then (p.dropLast, true) else (p, false)

/-- Does the top-level entry `e` answer to the path string `p`
(`os.path.exists`-style match)? -/
def matchesPath (p : List Char) (e : Entry) : Bool :=
  (e.name == (splitSlash p).1) && (isDirEntry e || !(splitSlash p).2)

/-- Model of `os.path.exists(p)` for a top-level path `p`. -/
def pathExists (fs : List Entry) (p : List Char) : Bool :=
  fs.any (matchesPath p)

/-- Model of `os.path.isdir(p)` for a top-level path `p`. -/
def pathIsDir (fs : List Entry) (p : List Char) : Bool :=
  fs.any (fun e => (e.name == (splitSlash p).1) && isDirEntry e)

/-- Removal of the object at top-level path `p`: `shutil.rmtree` for a
directory, `os.remove` for a file; in both cases the entry at that path
disappears from the listing. -/
def removePath (fs : List Entry) (p : List Char) : List Entry :=
  fs.filter (fun e => !(matchesPath p e))

/-- The fixed artifact list of lines 57-64. -/
def dirs_to_remove : List (List Char) :=
  ["build/", "dist/", ".pytest_cache/", ".mypy_cache/", "htmlcov/", ".coverage"].map
    String.toList

/-- Lines 66-69: names of immediate children of the working directory that end
with `.egg-info` and are directories. -/
def eggInfoDirs (fs : List Entry) : List (List Char) :=
  (fs.map Entry.name).filter
    (fun item => (".egg-info".toList).isSuffixOf item && pathIsDir fs item)

/-- The combined removal list handed to the loop at line 71. -/
def cleanTargets (fs : List Entry) : List (List Char) :=
  dirs_to_remove ++ eggInfoDirs fs

/-- The removal loop of lines 71-77: for each target path, if it exists,
remove it (directory subtree or single file) and report it; non-existent
paths are skipped silently.  Returns the remaining tree and the reported
removals in order. -/
def runCleanFixed : List Entry → List (List Char) → List Entry × List (List Char)
  | fs, [] => (fs, [])
  | fs, p :: ps =>
    if pathExists fs p then
      let rest := runCleanFixed (removePath fs p) ps
      (rest.1, p :: rest.2)
    else
      runCleanFixed fs ps

/-- The `os.walk` pass of lines 79-91 over the tree rooted at path `r`:
every directory named `__pycache__` is removed with its whole subtree
(descending into it afterwards yields nothing, silently), every file whose
name ends with `.pyc` is removed; other directories are recursed into.
The removal log lists the same removals as the source; only the interleaving
of sub-directory logs with same-level logs may differ from `os.walk`'s
top-down print order, the removed set and the resulting tree coincide. -/
def cleanWalk (r : List Char) : List Entry → List Entry × List (List Char)
  | [] => ([], [])
  | Entry.file n :: es =>
    let rest := cleanWalk r es
    if (".pyc".toList).isSuffixOf n then (rest.1, (r ++ '/' :: n) :: rest.2)
    else (Entry.file n :: rest.1, rest.2)
  | Entry.dir n cs :: es =>
    let rest := cleanWalk r es
    if n == "__pycache__".toList then (rest.1, (r ++ '/' :: n) :: rest.2)
    else
      let sub := cleanWalk (r ++ '/' :: n) cs
      (Entry.dir n sub.1 :: rest.1, sub.2 ++ rest.2)

/-- A tree with nothing left for the walk pass to remove: no directory named
`__pycache__` and no file ending in `.pyc`, at any depth. -/
def cleanTree : List Entry → Bool
  | [] => true
  | Entry.file n :: es => !(".pyc".toList).isSuffixOf n && cleanTree es
  | Entry.dir n cs :: es => !(n == "__pycache__".toList) && cleanTree cs && cleanTree es

/-- Model of `run_clean` (lines 55-93): fixed-list and `.egg-info` removals
first (lines 57-77), then the recursive cache walk (lines 79-91), starting
from the working directory `"."`.  Returns the resulting tree and the
reported removals. -/
def run_clean (fs : List Entry) : List Entry × List (List Char) :=
  let step3 := runCleanFixed fs (cleanTargets fs)
  let step4 := cleanWalk (".".toList) step3.1
  (step4.1, step3.2 ++ step4.2)

/-! ## Helper lemmas about `List.isPrefixOf` and `List.splitOn` -/

/-- A list is a prefix (in the Boolean sense) of itself followed by anything. -/
theorem isPrefixOf_self_append (l t : List Char) : l.isPrefixOf (l ++ t) = true := by
  rw [List.isPrefixOf_iff_prefix]
  exact List.prefix_append l t

/-- Failing a prefix test against a list at least as long as the candidate
cannot be repaired by appending more characters. -/
theorem isPrefixOf_append_of_ne (p : List Char) :
    ∀ l v : List Char, p.length ≤ l.length → p.isPrefixOf l = false →
      p.isPrefixOf (l ++ v) = false := by
  induction p with
  | nil => intro l v _ h; simp [List.isPrefixOf] at h
  | cons a p ih =>
    intro l v hlen h
    cases l with
    | nil => simp at hlen
    | cons b l =>
      simp only [List.cons_append, List.isPrefixOf] at h ⊢
      rcases hab : a == b with _ | _
      · simp [hab]
      · simp only [hab, Bool.true_and] at h ⊢
        exact ih l v (by simpa using hlen) h

/-- Splitting `l ++ '=' :: v` on `'='` when `l` is free of `'='` yields `l`
followed by the splitting of `v`. -/
theorem splitOn_append_eq (v : List Char) :
    ∀ l : List Char, '=' ∉ l → (l ++ '=' :: v).splitOn '=' = l :: v.splitOn '=' := by
  intro l
  induction l with
  | nil => intro _; simp [List.splitOn]
  | cons a l ih =>
    intro h
    have ha : (a == '=') = false := by
      simp only [List.mem_cons, not_or] at h
      simpa using fun hc => h.1 hc.symm
    have hl : '=' ∉ l := by
      simp only [List.mem_cons, not_or] at h
      exact h.2
    simp only [List.splitOn] at ih ⊢
    rw [List.cons_append, List.splitOnP_cons, ha, ih hl]
    simp

/-- The first group produced by splitting on `'='` is the longest
`'='`-free prefix. -/
theorem splitOn_head_eq (v : List Char) :
    ∃ t, v.splitOn '=' = (v.takeWhile (fun c => !(c == '='))) :: t := by
  induction v with
  | nil => exact ⟨[], rfl⟩
  | cons c v ih =>
    obtain ⟨t, ht⟩ := ih
    simp only [List.splitOn] at ht ⊢
    rcases hc : c == '=' with _ | _
    · rw [List.splitOnP_cons, hc, ht]
      simp only [List.takeWhile_cons, hc]
      exact ⟨t, by simp⟩
    · rw [List.splitOnP_cons, hc]
      simp only [List.takeWhile_cons, hc]
      exact ⟨v.splitOnP (fun c => c == '='), by simp⟩

/-- A list containing `'='` splits into at least two groups. -/
theorem splitOn_length_two (v : List Char) (h : '=' ∈ v) :
    2 ≤ (v.splitOn '=').length := by
  induction v with
  | nil => cases h
  | cons c v ih =>
    simp only [List.splitOn] at ih ⊢
    rcases hc : c == '=' with _ | _
    · have hv : '=' ∈ v := by
        rcases List.mem_cons.mp h with h1 | h1
        · exact absurd (beq_iff_eq.mpr h1.symm) (by simp [hc])
        · exact h1
      obtain ⟨g, t, hgt⟩ : ∃ g t, v.splitOnP (fun c => c == '=') = g :: t := by
        rcases he : v.splitOnP (fun c => c == '=') with _ | ⟨g, t⟩
        · exact absurd he (List.splitOnP_ne_nil _ v)
        · exact ⟨g, t, rfl⟩
      have h2 := ih hv
      rw [List.splitOnP_cons, hc, hgt]
      rw [hgt] at h2
      simpa using h2
    · rw [List.splitOnP_cons, hc]
      have h1 : 1 ≤ (v.splitOnP (fun c => c == '=')).length :=
        List.length_pos.mpr (List.splitOnP_ne_nil _ v)
      simp only [if_true, eq_self_iff_true, List.length_cons]
      omega

/-! ## Totality and field behaviour of the example-argument parser -/

/-- A token matching a flag that contains `'='` itself contains `'='`. -/
theorem mem_eq_of_flag (flag arg : List Char) (hf : '=' ∈ flag)
    (h : flag.isPrefixOf arg = true) : '=' ∈ arg := by
  rw [List.isPrefixOf_iff_prefix] at h
  obtain ⟨t, rfl⟩ := h
  exact List.mem_append_left t hf

/-- Position 1 is in range as soon as the split has two groups. -/
theorem getElem?_one_isSome {l : List (List Char)} (h : 2 ≤ l.length) :
    l[1]?.isSome = true := by
  rw [List.getElem?_eq_getElem (by omega)]
  rfl

/-- Branch taken by the loop body for a `--ticker=` token. -/
theorem parseArg_ticker_branch (p : ExampleParams) (t : List Char)
    (h : ("--ticker=".toList).isPrefixOf t = true) :
    parseArg p t = ((t.splitOn '=')[1]?).map (fun v => { p with ticker := v }) := by
  unfold parseArg
  rw [if_pos h]

/-- Branch taken by the loop body for a `--period=` token. -/
theorem parseArg_period_branch (p : ExampleParams) (t : List Char)
    (h1 : ("--ticker=".toList).isPrefixOf t = false)
    (h2 : ("--period=".toList).isPrefixOf t = true) :
    parseArg p t = ((t.splitOn '=')[1]?).map (fun v => { p with period := v }) := by
  unfold parseArg
  rw [if_neg (by simp only [h1]; decide), if_pos h2]

/-- Branch taken by the loop body for a `--strategy=` token. -/
theorem parseArg_strategy_branch (p : ExampleParams) (t : List Char)
    (h1 : ("--ticker=".toList).isPrefixOf t = false)
    (h2 : ("--period=".toList).isPrefixOf t = false)
    (h3 : ("--strategy=".toList).isPrefixOf t = true) :
    parseArg p t = ((t.splitOn '=')[1]?).map (fun v => { p with strategy := v }) := by
  unfold parseArg
  rw [if_neg (by simp only [h1]; decide), if_neg (by simp only [h2]; decide), if_pos h3]

/-- A token that matches none of the three flags leaves the loop state
unchanged. -/
theorem parseArg_unrecognized (p : ExampleParams) (t : List Char)
    (h1 : ("--ticker=".toList).isPrefixOf t = false)
    (h2 : ("--period=".toList).isPrefixOf t = false)
    (h3 : ("--strategy=".toList).isPrefixOf t = false) :
    parseArg p t = some p := by
  unfold parseArg
  rw [if_neg (by simp only [h1]; decide), if_neg (by simp only [h2]; decide), if_neg (by simp only [h3]; decide)]

/-- The loop body never raises: recognized tokens always split into at least
two groups, unrecognized ones are ignored. -/
theorem parseArg_isSome (p : ExampleParams) (t : List Char) :
    (parseArg p t).isSome = true := by
  by_cases h1 : ("--ticker=".toList).isPrefixOf t = true
  · have hlen := splitOn_length_two t (mem_eq_of_flag _ t (by decide) h1)
    rcases Option.isSome_iff_exists.mp (getElem?_one_isSome hlen) with ⟨v, hv⟩
    rw [parseArg_ticker_branch p t h1, hv]
    rfl
  · rw [Bool.not_eq_true] at h1
    by_cases h2 : ("--period=".toList).isPrefixOf t = true
    · have hlen := splitOn_length_two t (mem_eq_of_flag _ t (by decide) h2)
      rcases Option.isSome_iff_exists.mp (getElem?_one_isSome hlen) with ⟨v, hv⟩
      rw [parseArg_period_branch p t h1 h2, hv]
      rfl
    · rw [Bool.not_eq_true] at h2
      by_cases h3 : ("--strategy=".toList).isPrefixOf t = true
      · have hlen := splitOn_length_two t (mem_eq_of_flag _ t (by decide) h3)
        rcases Option.isSome_iff_exists.mp (getElem?_one_isSome hlen) with ⟨v, hv⟩
        rw [parseArg_strategy_branch p t h1 h2 h3, hv]
        rfl
      · rw [Bool.not_eq_true] at h3
        rw [parseArg_unrecognized p t h1 h2 h3]
        rfl

/-- The whole parsing loop never raises, from any starting state. -/
theorem foldlM_parseArg_isSome (args : List (List Char)) :
    ∀ p, (args.foldlM parseArg p).isSome = true := by
  induction args with
  | nil => intro p; rfl
  | cons a args ih =>
    intro p
    rw [List.foldlM_cons]
    rcases Option.isSome_iff_exists.mp (parseArg_isSome p a) with ⟨q, hq⟩
    rw [hq]
    exact ih q

/-- Argument resolution never raises. -/
theorem run_example_parse_isSome (args : List (List Char)) :
    (run_example_parse args).isSome = true := by
  unfold run_example_parse
  by_cases h : args.isEmpty
  · rw [if_pos h]
    rfl
  · rw [if_neg h]
    exact foldlM_parseArg_isSome args exampleDefaults

/-- Each loop iteration only writes the parameter of the flag it matched. -/
theorem parseArg_fields (p q : ExampleParams) (t : List Char)
    (h : parseArg p t = some q) :
    (("--ticker=".toList).isPrefixOf t = false → q.ticker = p.ticker) ∧
    (("--period=".toList).isPrefixOf t = false → q.period = p.period) ∧
    (("--strategy=".toList).isPrefixOf t = false → q.strategy = p.strategy) := by
  by_cases h1 : ("--ticker=".toList).isPrefixOf t = true
  · rw [parseArg_ticker_branch p t h1] at h
    rcases Option.map_eq_some'.mp h with ⟨v, _, rfl⟩
    exact ⟨fun hc => Bool.noConfusion (h1.symm.trans hc), fun _ => rfl, fun _ => rfl⟩
  · rw [Bool.not_eq_true] at h1
    by_cases h2 : ("--period=".toList).isPrefixOf t = true
    · rw [parseArg_period_branch p t h1 h2] at h
      rcases Option.map_eq_some'.mp h with ⟨v, _, rfl⟩
      exact ⟨fun _ => rfl, fun hc => Bool.noConfusion (h2.symm.trans hc), fun _ => rfl⟩
    · rw [Bool.not_eq_true] at h2
      by_cases h3 : ("--strategy=".toList).isPrefixOf t = true
      · rw [parseArg_strategy_branch p t h1 h2 h3] at h
        rcases Option.map_eq_some'.mp h with ⟨v, _, rfl⟩
        exact ⟨fun _ => rfl, fun _ => rfl, fun hc => Bool.noConfusion (h3.symm.trans hc)⟩
      · rw [Bool.not_eq_true] at h3
        rw [parseArg_unrecognized p t h1 h2 h3] at h
        cases h
        exact ⟨fun _ => rfl, fun _ => rfl, fun _ => rfl⟩

/-- Over a whole token list, the ticker parameter keeps its incoming value
when its flag never matches. -/
theorem foldlM_parseArg_ticker (args : List (List Char)) :
    ∀ p q, args.foldlM parseArg p = some q →
      (∀ t ∈ args, ("--ticker=".toList).isPrefixOf t = false) →
      q.ticker = p.ticker := by
  induction args with
  | nil => intro p q h _; cases h; rfl
  | cons a args ih =>
    intro p q h hn
    rw [List.foldlM_cons] at h
    rcases Option.isSome_iff_exists.mp (parseArg_isSome p a) with ⟨p1, hp1⟩
    rw [hp1] at h
    have h1 := (parseArg_fields p p1 a hp1).1 (hn a (List.mem_cons_self a args))
    rw [ih p1 q h (fun t ht => hn t (List.mem_cons_of_mem a ht)), h1]

/-- Same for the `period` parameter. -/
theorem foldlM_parseArg_period (args : List (List Char)) :
    ∀ p q, args.foldlM parseArg p = some q →
      (∀ t ∈ args, ("--period=".toList).isPrefixOf t = false) →
      q.period = p.period := by
  induction args with
  | nil => intro p q h _; cases h; rfl
  | cons a args ih =>
    intro p q h hn
    rw [List.foldlM_cons] at h
    rcases Option.isSome_iff_exists.mp (parseArg_isSome p a) with ⟨p1, hp1⟩
    rw [hp1] at h
    have h1 := (parseArg_fields p p1 a hp1).2.1 (hn a (List.mem_cons_self a args))
    rw [ih p1 q h (fun t ht => hn t (List.mem_cons_of_mem a ht)), h1]

/-- Same for the `strategy` parameter. -/
theorem foldlM_parseArg_strategy (args : List (List Char)) :
    ∀ p q, args.foldlM parseArg p = some q →
      (∀ t ∈ args, ("--strategy=".toList).isPrefixOf t = false) →
      q.strategy = p.strategy := by
  induction args with
  | nil => intro p q h _; cases h; rfl
  | cons a args ih =>
    intro p q h hn
    rw [List.foldlM_cons] at h
    rcases Option.isSome_iff_exists.mp (parseArg_isSome p a) with ⟨p1, hp1⟩
    rw [hp1] at h
    have h1 := (parseArg_fields p p1 a hp1).2.2 (hn a (List.mem_cons_self a args))
    rw [ih p1 q h (fun t ht => hn t (List.mem_cons_of_mem a ht)), h1]

/-- A single-token argument list resolves by one loop iteration. -/
theorem run_example_parse_single (t : List Char) :
    run_example_parse [t] = parseArg exampleDefaults t := by
  unfold run_example_parse
  rw [if_neg (by simp)]
  simp only [List.foldlM_cons, List.foldlM_nil]
  rcases parseArg exampleDefaults t with _ | q
  · rfl
  · rfl

/-- What the code resolves for a `--ticker=` token: the group of the
`'='`-split between the first and second separator. -/
theorem parse_value_ticker (v : List Char) :
    (run_example_parse ["--ticker=".toList ++ v]).map ExampleParams.ticker
      = some (v.takeWhile (fun c => !(c == '='))) := by
  rw [run_example_parse_single, parseArg_ticker_branch _ _ (isPrefixOf_self_append _ v)]
  have he : "--ticker=".toList ++ v = "--ticker".toList ++ '=' :: v := rfl
  rw [he, splitOn_append_eq v _ (by decide)]
  obtain ⟨t2, ht2⟩ := splitOn_head_eq v
  rw [ht2]
  simp

/-- Same resolution for a `--period=` token. -/
theorem parse_value_period (v : List Char) :
    (run_example_parse ["--period=".toList ++ v]).map ExampleParams.period
      = some (v.takeWhile (fun c => !(c == '='))) := by
  rw [run_example_parse_single,
    parseArg_period_branch _ _
      (isPrefixOf_append_of_ne _ _ v (by decide) (by decide))
      (isPrefixOf_self_append _ v)]
  have he : "--period=".toList ++ v = "--period".toList ++ '=' :: v := rfl
  rw [he, splitOn_append_eq v _ (by decide)]
  obtain ⟨t2, ht2⟩ := splitOn_head_eq v
  rw [ht2]
  simp

/-- Same resolution for a `--strategy=` token. -/
theorem parse_value_strategy (v : List Char) :
    (run_example_parse ["--strategy=".toList ++ v]).map ExampleParams.strategy
      = some (v.takeWhile (fun c => !(c == '='))) := by
  rw [run_example_parse_single,
    parseArg_strategy_branch _ _
      (isPrefixOf_append_of_ne _ _ v (by decide) (by decide))
      (isPrefixOf_append_of_ne _ _ v (by decide) (by decide))
      (isPrefixOf_self_append _ v)]
  have he : "--strategy=".toList ++ v = "--strategy".toList ++ '=' :: v := rfl
  rw [he, splitOn_append_eq v _ (by decide)]
  obtain ⟨t2, ht2⟩ := splitOn_head_eq v
  rw [ht2]
  simp

/-! ## Claim theorems -/

/-- C1, counterexample.  The claim says the resolved value is everything
after the first `'='` of the token, with further `'='` characters kept.  On
the token `--ticker=A=B` the spec's phrase gives `A=B` while the code
(`arg.split("=")[1]`) resolves `A`. -/
theorem spec_C1_cex :
    (run_example_parse ["--ticker=A=B".toList]).map ExampleParams.ticker = some ("A".toList) ∧
    afterFirstEq ("--ticker=A=B".toList) = "A=B".toList ∧
    ("A".toList : List Char) ≠ "A=B".toList := by
  decide

/-- C1, amended: for a token that begins with `--ticker=`, `--period=` or
`--strategy=`, the resolved value of the corresponding parameter is the
portion of the remainder up to (and excluding) the next `'='` if any; when
the remainder contains no further `'='` this is exactly everything after the
first `'='` (no trimming or validation). -/
theorem spec_C1_amended (v : List Char) :
    ((run_example_parse ["--ticker=".toList ++ v]).map ExampleParams.ticker
      = some (v.takeWhile (fun c => !(c == '=')))) ∧
    ((run_example_parse ["--period=".toList ++ v]).map ExampleParams.period
      = some (v.takeWhile (fun c => !(c == '=')))) ∧
    ((run_example_parse ["--strategy=".toList ++ v]).map ExampleParams.strategy
      = some (v.takeWhile (fun c => !(c == '=')))) ∧
    ('=' ∉ v →
      (run_example_parse ["--ticker=".toList ++ v]).map ExampleParams.ticker
        = some (afterFirstEq ("--ticker=".toList ++ v))) := by
  refine ⟨parse_value_ticker v, parse_value_period v, parse_value_strategy v, fun hv => ?_⟩
  have h1 : afterFirstEq ("--ticker=".toList ++ v) = v := rfl
  have h2 : v.takeWhile (fun c => !(c == '=')) = v := by
    rw [List.takeWhile_eq_self_iff]
    intro x hx
    have hne : x ≠ '=' := fun he => hv (he ▸ hx)
    simp [hne]
  rw [parse_value_ticker v, h1, h2]

/-- C1 amended, witness at the token `--ticker=X`. -/
theorem spec_C1_amended_witness :
    (run_example_parse ["--ticker=".toList ++ "X".toList]).map ExampleParams.ticker
      = some (afterFirstEq ("--ticker=".toList ++ "X".toList)) :=
  (spec_C1_amended ("X".toList)).2.2.2 (by decide)

/-- C10: for every token with a recognized flag, value extraction is total —
the split on `'='` has at least two groups, so the index-1 access is in
range; the whole parser never raises; and a token with an empty value part
resolves the parameter to the empty string. -/
theorem spec_C10 :
    (∀ arg : List Char,
      (("--ticker=".toList).isPrefixOf arg = true ∨
       ("--period=".toList).isPrefixOf arg = true ∨
       ("--strategy=".toList).isPrefixOf arg = true) →
      2 ≤ (arg.splitOn '=').length) ∧
    (∀ args : List (List Char), (run_example_parse args).isSome = true) ∧
    run_example_parse ["--ticker=".toList] = some { exampleDefaults with ticker := [] } := by
  refine ⟨fun arg h => ?_, run_example_parse_isSome, by decide⟩
  rcases h with h | h | h
  · exact splitOn_length_two arg (mem_eq_of_flag _ arg (by decide) h)
  · exact splitOn_length_two arg (mem_eq_of_flag _ arg (by decide) h)
  · exact splitOn_length_two arg (mem_eq_of_flag _ arg (by decide) h)

/-- C10, witness at the token `--ticker=x`. -/
theorem spec_C10_witness :
    2 ≤ (("--ticker=x".toList).splitOn '=').length :=
  spec_C10.1 ("--ticker=x".toList) (Or.inl (by decide))

/-- C7: with no tokens the resolved parameters are exactly the defaults
`MSFT`, `day`, `simple`; with `--ticker=AAPL --period=week` the strategy
default is retained; and in general a parameter whose flag matches no token
resolves to its default. -/
theorem spec_C7 :
    run_example_parse [] = some exampleDefaults ∧
    run_example_parse ["--ticker=AAPL".toList, "--period=week".toList] =
      some { ticker := "AAPL".toList, period := "week".toList, strategy := "simple".toList } ∧
    (∀ args : List (List Char),
      (∀ t ∈ args, ("--ticker=".toList).isPrefixOf t = false) →
      (run_example_parse args).map ExampleParams.ticker = some ("MSFT".toList)) ∧
    (∀ args : List (List Char),
      (∀ t ∈ args, ("--period=".toList).isPrefixOf t = false) →
      (run_example_parse args).map ExampleParams.period = some ("day".toList)) ∧
    (∀ args : List (List Char),
      (∀ t ∈ args, ("--strategy=".toList).isPrefixOf t = false) →
      (run_example_parse args).map ExampleParams.strategy = some ("simple".toList)) := by
  refine ⟨by decide, by decide, fun args hn => ?_, fun args hn => ?_, fun args hn => ?_⟩
  · unfold run_example_parse
    by_cases he : args.isEmpty
    · rw [if_pos he]; rfl
    · rw [if_neg he]
      rcases Option.isSome_iff_exists.mp (foldlM_parseArg_isSome args exampleDefaults) with ⟨q, hq⟩
      rw [hq, Option.map_some', foldlM_parseArg_ticker args exampleDefaults q hq hn]
      rfl
  · unfold run_example_parse
    by_cases he : args.isEmpty
    · rw [if_pos he]; rfl
    · rw [if_neg he]
      rcases Option.isSome_iff_exists.mp (foldlM_parseArg_isSome args exampleDefaults) with ⟨q, hq⟩
      rw [hq, Option.map_some', foldlM_parseArg_period args exampleDefaults q hq hn]
      rfl
  · unfold run_example_parse
    by_cases he : args.isEmpty
    · rw [if_pos he]; rfl
    · rw [if_neg he]
      rcases Option.isSome_iff_exists.mp (foldlM_parseArg_isSome args exampleDefaults) with ⟨q, hq⟩
      rw [hq, Option.map_some', foldlM_parseArg_strategy args exampleDefaults q hq hn]
      rfl

/-- C7, witness: tokens that only set the period leave the ticker at its
default. -/
theorem spec_C7_witness :
    (run_example_parse ["--period=week".toList]).map ExampleParams.ticker
      = some ("MSFT".toList) :=
  spec_C7.2.2.1 ["--period=week".toList] (by decide)

/-- C5: a token that starts with none of the three flags — including
malformed tokens without `'='` — never changes the resolved parameter set,
wherever it sits in the sequence, and never raises. -/
theorem spec_C5 (l1 l2 : List (List Char)) (t : List Char)
    (h1 : ("--ticker=".toList).isPrefixOf t = false)
    (h2 : ("--period=".toList).isPrefixOf t = false)
    (h3 : ("--strategy=".toList).isPrefixOf t = false) :
    run_example_parse (l1 ++ t :: l2) = run_example_parse (l1 ++ l2) ∧
    (run_example_parse (l1 ++ t :: l2)).isSome = true := by
  refine ⟨?_, run_example_parse_isSome _⟩
  have hfold : ∀ (l : List (List Char)) (p : ExampleParams),
      (t :: l).foldlM parseArg p = l.foldlM parseArg p := by
    intro l p
    rw [List.foldlM_cons, parseArg_unrecognized p t h1 h2 h3]
    rfl
  unfold run_example_parse
  rw [if_neg (by simp)]
  rcases hl : l1 ++ l2 with _ | ⟨x, xs⟩
  · obtain ⟨rfl, rfl⟩ := List.append_eq_nil.mp hl
    have hemp : ([] : List (List Char)).isEmpty = true := rfl
    rw [if_pos hemp, List.nil_append, hfold [] exampleDefaults]
    rfl
  · rw [if_neg (by simp)]
    rw [← hl, List.foldlM_append, List.foldlM_append]
    rcases Option.isSome_iff_exists.mp (foldlM_parseArg_isSome l1 exampleDefaults) with ⟨p, hp⟩
    rw [hp]
    show List.foldlM parseArg p (t :: l2) = List.foldlM parseArg p l2
    exact hfold l2 p

/-- C5, witness at an unrecognized token. -/
theorem spec_C5_witness :
    run_example_parse ([] ++ "hello".toList :: []) = run_example_parse ([] ++ []) ∧
    (run_example_parse ([] ++ "hello".toList :: [])).isSome = true :=
  spec_C5 [] [] ("hello".toList) (by decide) (by decide) (by decide)

/-- A token carrying the period flag cannot carry the ticker flag. -/
theorem not_ticker_of_period {t : List Char}
    (h : ("--period=".toList).isPrefixOf t = true) :
    ("--ticker=".toList).isPrefixOf t = false := by
  rw [List.isPrefixOf_iff_prefix] at h
  obtain ⟨w, rfl⟩ := h
  exact isPrefixOf_append_of_ne _ _ w (by decide) (by decide)

/-- A token carrying the strategy flag cannot carry the ticker flag. -/
theorem not_ticker_of_strategy {t : List Char}
    (h : ("--strategy=".toList).isPrefixOf t = true) :
    ("--ticker=".toList).isPrefixOf t = false := by
  rw [List.isPrefixOf_iff_prefix] at h
  obtain ⟨w, rfl⟩ := h
  exact isPrefixOf_append_of_ne _ _ w (by decide) (by decide)

/-- A token carrying the strategy flag cannot carry the period flag. -/
theorem not_period_of_strategy {t : List Char}
    (h : ("--strategy=".toList).isPrefixOf t = true) :
    ("--period=".toList).isPrefixOf t = false := by
  rw [List.isPrefixOf_iff_prefix] at h
  obtain ⟨w, rfl⟩ := h
  exact isPrefixOf_append_of_ne _ _ w (by decide) (by decide)

/-- C6: with several occurrences of the same flag the last one wins — for
each of the three flags, the resolved parameter is exactly the value the
code extracts from the last matching token; in particular
`--ticker=AAPL --ticker=GOOG` resolves the ticker to `GOOG`. -/
theorem spec_C6 :
    (∀ (l1 l2 : List (List Char)) (t : List Char),
      ("--ticker=".toList).isPrefixOf t = true →
      (∀ u ∈ l2, ("--ticker=".toList).isPrefixOf u = false) →
      (run_example_parse (l1 ++ t :: l2)).map ExampleParams.ticker = (t.splitOn '=')[1]?) ∧
    (∀ (l1 l2 : List (List Char)) (t : List Char),
      ("--period=".toList).isPrefixOf t = true →
      (∀ u ∈ l2, ("--period=".toList).isPrefixOf u = false) →
      (run_example_parse (l1 ++ t :: l2)).map ExampleParams.period = (t.splitOn '=')[1]?) ∧
    (∀ (l1 l2 : List (List Char)) (t : List Char),
      ("--strategy=".toList).isPrefixOf t = true →
      (∀ u ∈ l2, ("--strategy=".toList).isPrefixOf u = false) →
      (run_example_parse (l1 ++ t :: l2)).map ExampleParams.strategy = (t.splitOn '=')[1]?) ∧
    (run_example_parse ["--ticker=AAPL".toList, "--ticker=GOOG".toList]).map
      ExampleParams.ticker = some ("GOOG".toList) := by
  refine ⟨fun l1 l2 t ht hn => ?_, fun l1 l2 t ht hn => ?_, fun l1 l2 t ht hn => ?_, by decide⟩
  · unfold run_example_parse
    rw [if_neg (by simp)]
    rw [List.foldlM_append]
    rcases Option.isSome_iff_exists.mp (foldlM_parseArg_isSome l1 exampleDefaults) with ⟨p, hp⟩
    rw [hp]
    show (List.foldlM parseArg p (t :: l2)).map ExampleParams.ticker = _
    rw [List.foldlM_cons]
    have hlen := splitOn_length_two t (mem_eq_of_flag _ t (by decide) ht)
    rcases Option.isSome_iff_exists.mp (getElem?_one_isSome hlen) with ⟨v, hv⟩
    rw [parseArg_ticker_branch p t ht, hv]
    show (List.foldlM parseArg { p with ticker := v } l2).map ExampleParams.ticker = _
    rcases Option.isSome_iff_exists.mp (foldlM_parseArg_isSome l2 { p with ticker := v })
      with ⟨q, hq⟩
    rw [hq, Option.map_some',
      foldlM_parseArg_ticker l2 { p with ticker := v } q hq hn]
  · unfold run_example_parse
    rw [if_neg (by simp)]
    rw [List.foldlM_append]
    rcases Option.isSome_iff_exists.mp (foldlM_parseArg_isSome l1 exampleDefaults) with ⟨p, hp⟩
    rw [hp]
    show (List.foldlM parseArg p (t :: l2)).map ExampleParams.period = _
    rw [List.foldlM_cons]
    have hlen := splitOn_length_two t (mem_eq_of_flag _ t (by decide) ht)
    rcases Option.isSome_iff_exists.mp (getElem?_one_isSome hlen) with ⟨v, hv⟩
    rw [parseArg_period_branch p t (not_ticker_of_period ht) ht, hv]
    show (List.foldlM parseArg { p with period := v } l2).map ExampleParams.period = _
    rcases Option.isSome_iff_exists.mp (foldlM_parseArg_isSome l2 { p with period := v })
      with ⟨q, hq⟩
    rw [hq, Option.map_some',
      foldlM_parseArg_period l2 { p with period := v } q hq hn]
  · unfold run_example_parse
    rw [if_neg (by simp)]
    rw [List.foldlM_append]
    rcases Option.isSome_iff_exists.mp (foldlM_parseArg_isSome l1 exampleDefaults) with ⟨p, hp⟩
    rw [hp]
    show (List.foldlM parseArg p (t :: l2)).map ExampleParams.strategy = _
    rw [List.foldlM_cons]
    have hlen := splitOn_length_two t (mem_eq_of_flag _ t (by decide) ht)
    rcases Option.isSome_iff_exists.mp (getElem?_one_isSome hlen) with ⟨v, hv⟩
    rw [parseArg_strategy_branch p t (not_ticker_of_strategy ht)
      (not_period_of_strategy ht) ht, hv]
    show (List.foldlM parseArg { p with strategy := v } l2).map ExampleParams.strategy = _
    rcases Option.isSome_iff_exists.mp (foldlM_parseArg_isSome l2 { p with strategy := v })
      with ⟨q, hq⟩
    rw [hq, Option.map_some',
      foldlM_parseArg_strategy l2 { p with strategy := v } q hq hn]

/-- C6, witness: a repeated period flag keeps the later value, and a single
ticker token is its own last occurrence. -/
theorem spec_C6_witness :
    (run_example_parse ([] ++ "--ticker=GOOG".toList :: [])).map ExampleParams.ticker
      = (("--ticker=GOOG".toList).splitOn '=')[1]? ∧
    (run_example_parse (["--period=day".toList] ++ "--period=week".toList :: [])).map
      ExampleParams.period = (("--period=week".toList).splitOn '=')[1]? :=
  ⟨spec_C6.1 [] [] ("--ticker=GOOG".toList) (by decide) (by simp),
   spec_C6.2.1 ["--period=day".toList] [] ("--period=week".toList) (by decide) (by simp)⟩

/-! ## Behaviour of the format / lint / verify operations -/

/-- `run_lint` appends its two checker invocations and never raises, no
matter what either checker's exit code is. -/
theorem run_lint_eq (env : Nat → Int) (s : ExecState) :
    run_lint env s =
      if s.ok then { trace := s.trace ++ [flake8Cmd, mypyCmd], ok := true } else s := by
  rcases s with ⟨tr, _ | _⟩
  · rfl
  · simp [run_lint, subprocess_run]

/-- Exhaustive description of a `run_format` run from a fresh state: it
advances through autoflake, black, isort and stops at the first non-zero
exit code. -/
theorem run_format_eq (env : Nat → Int) :
    run_format env { trace := [], ok := true } =
      if (env 0 != 0) = true then { trace := [autoflakeCmd], ok := false }
      else if (env 1 != 0) = true then { trace := [autoflakeCmd, blackCmd], ok := false }
      else if (env 2 != 0) = true then
        { trace := [autoflakeCmd, blackCmd, isortCmd], ok := false }
      else { trace := [autoflakeCmd, blackCmd, isortCmd], ok := true } := by
  by_cases h0 : (env 0 != 0) = true
  · simp [run_format, subprocess_run, h0]
  · rw [Bool.not_eq_true] at h0
    by_cases h1 : (env 1 != 0) = true
    · simp [run_format, subprocess_run, h0, h1]
    · rw [Bool.not_eq_true] at h1
      by_cases h2 : (env 2 != 0) = true
      · simp [run_format, subprocess_run, h0, h1, h2]
      · rw [Bool.not_eq_true] at h2
        simp [run_format, subprocess_run, h0, h1, h2]

/-- C8: the lint operation invokes the style checker and the type checker,
in that order, on every execution, and no exit code aborts it. -/
theorem spec_C8 (env : Nat → Int) :
    run_lint env { trace := [], ok := true } =
      { trace := [flake8Cmd, mypyCmd], ok := true } := by
  rw [run_lint_eq]
  rfl

/-- C8, witness at an environment where every process fails. -/
theorem spec_C8_witness :
    run_lint (fun _ => 1) { trace := [], ok := true } =
      { trace := [flake8Cmd, mypyCmd], ok := true } :=
  spec_C8 (fun _ => 1)

/-- C3: the format operation is fail-fast — a non-zero exit of the first
step leaves exactly one launched process (no formatter, no import sorter)
and raises; a failure of the second step prevents the third. -/
theorem spec_C3 (env : Nat → Int) :
    ((env 0 != 0) = true →
      run_format env { trace := [], ok := true } = { trace := [autoflakeCmd], ok := false }) ∧
    ((env 0 != 0) = false → (env 1 != 0) = true →
      run_format env { trace := [], ok := true } =
        { trace := [autoflakeCmd, blackCmd], ok := false }) := by
  constructor
  · intro h0
    rw [run_format_eq, if_pos h0]
  · intro h0 h1
    rw [run_format_eq, if_neg (by simp [h0]), if_pos h1]

/-- C3, witness: a first-step failure and a second-step failure. -/
theorem spec_C3_witness :
    run_format (fun _ => 1) { trace := [], ok := true } =
      { trace := [autoflakeCmd], ok := false } ∧
    run_format (fun n => if n == 0 then 0 else 1) { trace := [], ok := true } =
      { trace := [autoflakeCmd, blackCmd], ok := false } :=
  ⟨(spec_C3 (fun _ => 1)).1 (by decide),
   (spec_C3 (fun n => if n == 0 then 0 else 1)).2 (by decide) (by decide)⟩

/-- The trace of a fresh `run_format` run is always a non-empty prefix of
autoflake, black, isort. -/
theorem run_format_trace_cases (env : Nat → Int) :
    (run_format env { trace := [], ok := true }).trace = [autoflakeCmd] ∨
    (run_format env { trace := [], ok := true }).trace = [autoflakeCmd, blackCmd] ∨
    (run_format env { trace := [], ok := true }).trace = [autoflakeCmd, blackCmd, isortCmd] := by
  by_cases h0 : (env 0 != 0) = true
  · rw [run_format_eq, if_pos h0]
    exact Or.inl rfl
  · by_cases h1 : (env 1 != 0) = true
    · rw [run_format_eq, if_neg h0, if_pos h1]
      exact Or.inr (Or.inl rfl)
    · by_cases h2 : (env 2 != 0) = true
      · rw [run_format_eq, if_neg h0, if_neg h1, if_pos h2]
        exact Or.inr (Or.inr rfl)
      · rw [run_format_eq, if_neg h0, if_neg h1, if_neg h2]
        exact Or.inr (Or.inr rfl)

/-- C2: when the format phase of verify fails, verify stops there — neither
lint checker nor the package builder is ever launched; when the format phase
succeeds, the package builder is launched whatever exit codes the lint
checkers return. -/
theorem spec_C2 (env : Nat → Int) :
    ((run_format env { trace := [], ok := true }).ok = false →
      run_verify env { trace := [], ok := true } =
        run_format env { trace := [], ok := true } ∧
      flake8Cmd ∉ (run_verify env { trace := [], ok := true }).trace ∧
      mypyCmd ∉ (run_verify env { trace := [], ok := true }).trace ∧
      poetryBuildCmd ∉ (run_verify env { trace := [], ok := true }).trace) ∧
    ((run_format env { trace := [], ok := true }).ok = true →
      poetryBuildCmd ∈ (run_verify env { trace := [], ok := true }).trace) := by
  have hv : run_verify env { trace := [], ok := true } =
      subprocess_run env poetryBuildCmd false
        (run_lint env (run_format env { trace := [], ok := true })) := rfl
  constructor
  · intro h
    have hl : run_lint env (run_format env { trace := [], ok := true })
        = run_format env { trace := [], ok := true } := by
      rw [run_lint_eq, if_neg (by rw [h]; exact Bool.false_ne_true)]
    have hp : run_verify env { trace := [], ok := true }
        = run_format env { trace := [], ok := true } := by
      rw [hv, hl]
      unfold subprocess_run
      rw [if_neg (by rw [h]; exact Bool.false_ne_true)]
    refine ⟨hp, ?_, ?_, ?_⟩ <;> rw [hp] <;>
      rcases run_format_trace_cases env with ht | ht | ht <;> rw [ht] <;> decide
  · intro h
    have hl := run_lint_eq env (run_format env { trace := [], ok := true })
    rw [if_pos h] at hl
    rw [hv, hl]
    simp [subprocess_run]

/-- C2, witness: one environment where autoflake fails and one where
everything succeeds but the lint checkers would have failed anyway. -/
theorem spec_C2_witness :
    flake8Cmd ∉ (run_verify (fun _ => 1) { trace := [], ok := true }).trace ∧
    poetryBuildCmd ∈
      (run_verify (fun n => if n ≤ 2 then 0 else 1) { trace := [], ok := true }).trace :=
  ⟨((spec_C2 (fun _ => 1)).1 (by decide)).2.1,
   (spec_C2 (fun n => if n ≤ 2 then 0 else 1)).2 (by decide)⟩

/-! ## Behaviour of the cleanup operation -/

/-- The fixed-list removal loop only ever deletes top-level entries. -/
theorem runCleanFixed_sublist (ps : List (List Char)) :
    ∀ fs : List Entry, List.Sublist (runCleanFixed fs ps).1 fs := by
  induction ps with
  | nil => intro fs; exact List.Sublist.refl fs
  | cons p ps ih =>
    intro fs
    simp only [runCleanFixed]
    by_cases h : pathExists fs p = true
    · rw [if_pos h]
      exact (ih (removePath fs p)).trans (List.filter_sublist fs)
    · rw [if_neg h]
      exact ih fs

/-- A path absent from a listing stays absent in any sub-listing. -/
theorem pathExists_mono {fs' fs : List Entry} (h : List.Sublist fs' fs) (p : List Char)
    (hp : pathExists fs p = false) : pathExists fs' p = false := by
  rw [pathExists, List.any_eq_false] at hp ⊢
  exact fun e he => hp e (List.Sublist.mem he h)

/-- Removing a path makes it non-existent. -/
theorem pathExists_removePath (fs : List Entry) (p : List Char) :
    pathExists (removePath fs p) p = false := by
  rw [pathExists, List.any_eq_false]
  intro e he
  rw [removePath] at he
  have h2 := (List.mem_filter.mp he).2
  simpa using h2

/-- After the removal loop, no processed target exists any more. -/
theorem runCleanFixed_kills (ps : List (List Char)) :
    ∀ (fs : List Entry) (p : List Char), p ∈ ps →
      pathExists (runCleanFixed fs ps).1 p = false := by
  induction ps with
  | nil => intro fs p h; cases h
  | cons q ps ih =>
    intro fs p hp
    simp only [runCleanFixed]
    by_cases hq : pathExists fs q = true
    · rw [if_pos hq]
      rcases List.mem_cons.mp hp with rfl | hp'
      · exact pathExists_mono (runCleanFixed_sublist ps (removePath fs p)) p
          (pathExists_removePath fs p)
      · exact ih (removePath fs q) p hp'
    · rw [if_neg hq]
      rcases List.mem_cons.mp hp with rfl | hp'
      · have hq' : pathExists fs p = false := by
          rwa [Bool.not_eq_true] at hq
        exact pathExists_mono (runCleanFixed_sublist ps fs) p hq'
      · exact ih fs p hp'

/-- A path that does not exist is never reported by the removal loop. -/
theorem runCleanFixed_skips (ps : List (List Char)) :
    ∀ (fs : List Entry) (p : List Char), pathExists fs p = false →
      p ∉ (runCleanFixed fs ps).2 := by
  induction ps with
  | nil =>
    intro fs p _ h
    simp only [runCleanFixed] at h
    cases h
  | cons q ps ih =>
    intro fs p hp
    simp only [runCleanFixed]
    by_cases hq : pathExists fs q = true
    · rw [if_pos hq]
      intro hmem
      rcases List.mem_cons.mp hmem with rfl | hmem'
      · exact Bool.noConfusion (hp.symm.trans hq)
      · exact ih (removePath fs q) p (pathExists_mono (List.filter_sublist fs) p hp) hmem'
    · rw [if_neg hq]
      exact ih fs p hp

/-- Targets that all fail the existence test produce no removal at all. -/
theorem runCleanFixed_noop (ps : List (List Char)) :
    ∀ fs : List Entry, (∀ p ∈ ps, pathExists fs p = false) →
      runCleanFixed fs ps = (fs, []) := by
  induction ps with
  | nil => intro fs _; rfl
  | cons q ps ih =>
    intro fs h
    simp only [runCleanFixed]
    rw [if_neg (by rw [h q (List.mem_cons_self q ps)]; exact Bool.false_ne_true)]
    exact ih fs (fun p hp => h p (List.mem_cons_of_mem q hp))

/-- A name ending in `.egg-info` does not end in a slash. -/
theorem eggInfo_no_slash {n : List Char}
    (h : (".egg-info".toList).isSuffixOf n = true) : (['/']).isSuffixOf n = false := by
  rcases hs : (['/']).isSuffixOf n with _ | _
  · rfl
  · exfalso
    rw [List.isSuffixOf_iff_suffix] at h hs
    obtain ⟨a, ha⟩ := h
    obtain ⟨b, hb⟩ := hs
    rw [← ha] at hb
    have he : (".egg-info".toList : List Char) = ".egg-inf".toList ++ ['o'] := by decide
    rw [he, ← List.append_assoc] at hb
    have h2 := (List.append_inj' hb rfl).2
    exact absurd h2 (by decide)

/-- Such a name is therefore looked up verbatim, as a path of either kind. -/
theorem splitSlash_eggInfo {n : List Char}
    (h : (".egg-info".toList).isSuffixOf n = true) : splitSlash n = (n, false) := by
  rw [splitSlash, if_neg (by rw [eggInfo_no_slash h]; exact Bool.false_ne_true)]

/-- After the walk pass nothing matching its two patterns is left. -/
theorem cleanWalk_clean (r : List Char) (es : List Entry) :
    cleanTree (cleanWalk r es).1 = true := by
  induction r, es using cleanWalk.induct with
  | case1 r =>
    rw [cleanWalk]
    show cleanTree [] = true
    rw [cleanTree]
  | case2 r n es h ih =>
    simp only [cleanWalk]
    rw [if_pos h]
    exact ih
  | case3 r n es h ih =>
    simp only [cleanWalk]
    rw [if_neg h, cleanTree]
    rw [Bool.not_eq_true] at h
    rw [h]
    simpa using ih
  | case4 r n cs es h ih =>
    simp only [cleanWalk]
    rw [if_pos h]
    exact ih
  | case5 r n cs es h ihes ihcs =>
    simp only [cleanWalk]
    rw [if_neg h, cleanTree]
    rw [Bool.not_eq_true] at h
    rw [h]
    simp only [Bool.not_false, Bool.true_and]
    rw [ihes, ihcs]
    rfl

/-- The walk pass does nothing on a tree it already cleaned. -/
theorem cleanWalk_noop (r : List Char) (es : List Entry) :
    cleanTree es = true → cleanWalk r es = (es, []) := by
  induction r, es using cleanWalk.induct with
  | case1 r => intro _; rw [cleanWalk]
  | case2 r n es h ih =>
    intro hc
    rw [cleanTree, Bool.and_eq_true] at hc
    rw [h] at hc
    exact absurd hc.1 (by decide)
  | case3 r n es h ih =>
    intro hc
    rw [cleanTree, Bool.and_eq_true] at hc
    simp only [cleanWalk]
    rw [if_neg h, ih hc.2]
  | case4 r n cs es h ih =>
    intro hc
    rw [cleanTree, Bool.and_eq_true, Bool.and_eq_true] at hc
    rw [h] at hc
    exact absurd hc.1.1 (by decide)
  | case5 r n cs es h ihes ihcs =>
    intro hc
    rw [cleanTree, Bool.and_eq_true, Bool.and_eq_true] at hc
    simp only [cleanWalk]
    rw [if_neg h, ihes hc.2, ihcs hc.1.2]
    rfl

/-- Every path the walk pass reports lies strictly below the root it was
given. -/
theorem cleanWalk_log (r : List Char) (es : List Entry) :
    ∀ x ∈ (cleanWalk r es).2, ∃ s, x = r ++ '/' :: s := by
  induction r, es using cleanWalk.induct with
  | case1 r =>
    intro x hx
    rw [cleanWalk] at hx
    cases hx
  | case2 r n es h ih =>
    intro x hx
    simp only [cleanWalk] at hx
    rw [if_pos h] at hx
    rcases List.mem_cons.mp hx with rfl | hx'
    · exact ⟨n, rfl⟩
    · exact ih x hx'
  | case3 r n es h ih =>
    intro x hx
    simp only [cleanWalk] at hx
    rw [if_neg h] at hx
    exact ih x hx
  | case4 r n cs es h ih =>
    intro x hx
    simp only [cleanWalk] at hx
    rw [if_pos h] at hx
    rcases List.mem_cons.mp hx with rfl | hx'
    · exact ⟨n, rfl⟩
    · exact ih x hx'
  | case5 r n cs es h ihes ihcs =>
    intro x hx
    simp only [cleanWalk] at hx
    rw [if_neg h] at hx
    rcases List.mem_append.mp hx with hx' | hx'
    · obtain ⟨s, rfl⟩ := ihcs x hx'
      exact ⟨n ++ '/' :: s, by simp⟩
    · exact ihes x hx'

/-- Every surviving top-level entry of the walk keeps the name and kind of a
top-level entry of the input. -/
theorem cleanWalk_shape (r : List Char) (es : List Entry) :
    ∀ e2 ∈ (cleanWalk r es).1,
      ∃ e ∈ es, Entry.name e = Entry.name e2 ∧ isDirEntry e = isDirEntry e2 := by
  induction r, es using cleanWalk.induct with
  | case1 r =>
    intro e2 h2
    rw [cleanWalk] at h2
    cases h2
  | case2 r n es h ih =>
    intro e2 h2
    simp only [cleanWalk] at h2
    rw [if_pos h] at h2
    obtain ⟨e, he, hp⟩ := ih e2 h2
    exact ⟨e, List.mem_cons_of_mem _ he, hp⟩
  | case3 r n es h ih =>
    intro e2 h2
    simp only [cleanWalk] at h2
    rw [if_neg h] at h2
    rcases List.mem_cons.mp h2 with rfl | h2'
    · exact ⟨Entry.file n, List.mem_cons_self _ _, rfl, rfl⟩
    · obtain ⟨e, he, hp⟩ := ih e2 h2'
      exact ⟨e, List.mem_cons_of_mem _ he, hp⟩
  | case4 r n cs es h ih =>
    intro e2 h2
    simp only [cleanWalk] at h2
    rw [if_pos h] at h2
    obtain ⟨e, he, hp⟩ := ih e2 h2
    exact ⟨e, List.mem_cons_of_mem _ he, hp⟩
  | case5 r n cs es h ihes ihcs =>
    intro e2 h2
    simp only [cleanWalk] at h2
    rw [if_neg h] at h2
    rcases List.mem_cons.mp h2 with rfl | h2'
    · exact ⟨Entry.dir n cs, List.mem_cons_self _ _, rfl, rfl⟩
    · obtain ⟨e, he, hp⟩ := ihes e2 h2'
      exact ⟨e, List.mem_cons_of_mem _ he, hp⟩

/-- Unfolding of `run_clean` into its two passes. -/
theorem run_clean_def (fs : List Entry) :
    run_clean fs =
      ((cleanWalk (".".toList) (runCleanFixed fs (cleanTargets fs)).1).1,
        (runCleanFixed fs (cleanTargets fs)).2 ++
          (cleanWalk (".".toList) (runCleanFixed fs (cleanTargets fs)).1).2) := rfl

/-- After the removal loop no top-level `.egg-info` directory survives. -/
theorem step3_no_egg (fs : List Entry) :
    ∀ e ∈ (runCleanFixed fs (cleanTargets fs)).1, isDirEntry e = true →
      (".egg-info".toList).isSuffixOf (Entry.name e) = false := by
  intro e he hd
  rcases hs : (".egg-info".toList).isSuffixOf (Entry.name e) with _ | _
  · rfl
  · exfalso
    have hefs : e ∈ fs := List.Sublist.mem he (runCleanFixed_sublist _ fs)
    have hmem : Entry.name e ∈ eggInfoDirs fs := by
      rw [eggInfoDirs, List.mem_filter]
      refine ⟨List.mem_map_of_mem Entry.name hefs, ?_⟩
      rw [hs, Bool.true_and, pathIsDir, List.any_eq_true]
      exact ⟨e, hefs, by rw [splitSlash_eggInfo hs]; simp [hd]⟩
    have hkill := runCleanFixed_kills (cleanTargets fs) fs (Entry.name e)
      (List.mem_append_right _ hmem)
    rw [pathExists, List.any_eq_false] at hkill
    exact hkill e he (by rw [matchesPath, splitSlash_eggInfo hs]; simp)

/-- Nor does one survive the subsequent walk pass. -/
theorem run_clean_no_egg (fs : List Entry) :
    ∀ e2 ∈ (run_clean fs).1, isDirEntry e2 = true →
      (".egg-info".toList).isSuffixOf (Entry.name e2) = false := by
  intro e2 he2 hd
  have he2' : e2 ∈ (cleanWalk (".".toList) (runCleanFixed fs (cleanTargets fs)).1).1 := he2
  obtain ⟨e, he, hname, hkind⟩ := cleanWalk_shape (".".toList) _ e2 he2'
  rw [← hname]
  exact step3_no_egg fs e he (by rw [hkind]; exact hd)

/-- Cleaning leaves no `.egg-info` directory to pick up on a second pass. -/
theorem eggInfoDirs_run_clean (fs : List Entry) : eggInfoDirs (run_clean fs).1 = [] := by
  rw [eggInfoDirs, List.filter_eq_nil_iff]
  intro item hitem hpred
  rw [Bool.and_eq_true] at hpred
  obtain ⟨hsuf, hdir⟩ := hpred
  rw [pathIsDir, List.any_eq_true] at hdir
  obtain ⟨d, hd, hmatch⟩ := hdir
  rw [splitSlash_eggInfo hsuf, Bool.and_eq_true, beq_iff_eq] at hmatch
  obtain ⟨hnamed, hdird⟩ := hmatch
  have hne := run_clean_no_egg fs d hd hdird
  rw [hnamed] at hne
  exact Bool.noConfusion (hsuf.symm.trans hne)

/-- No fixed artifact path exists after cleaning. -/
theorem run_clean_fixed_dead (fs : List Entry) :
    ∀ p ∈ dirs_to_remove, pathExists (run_clean fs).1 p = false := by
  intro p hp
  have h1 : pathExists (runCleanFixed fs (cleanTargets fs)).1 p = false :=
    runCleanFixed_kills _ fs p (List.mem_append_left _ hp)
  rcases hs : pathExists (run_clean fs).1 p with _ | _
  · rfl
  · exfalso
    rw [pathExists, List.any_eq_true] at hs
    obtain ⟨e2, he2, hm⟩ := hs
    have he2' : e2 ∈ (cleanWalk (".".toList) (runCleanFixed fs (cleanTargets fs)).1).1 := he2
    obtain ⟨e, he, hname, hkind⟩ := cleanWalk_shape (".".toList) _ e2 he2'
    rw [pathExists, List.any_eq_false] at h1
    refine h1 e he ?_
    rw [matchesPath] at hm ⊢
    rw [hname, hkind]
    exact hm

/-- C9: cleanup is idempotent — a second run straight after a first one
removes nothing (its report is empty and the tree is unchanged); and a fixed
artifact path that does not exist is skipped silently, never reported. -/
theorem spec_C9 (fs : List Entry) :
    run_clean (run_clean fs).1 = ((run_clean fs).1, []) ∧
    ∀ p ∈ dirs_to_remove, pathExists fs p = false → p ∉ (run_clean fs).2 := by
  constructor
  · have htg : cleanTargets (run_clean fs).1 = dirs_to_remove ++ [] := by
      rw [cleanTargets, eggInfoDirs_run_clean]
    have hstep3 : runCleanFixed (run_clean fs).1 (cleanTargets (run_clean fs).1)
        = ((run_clean fs).1, []) := by
      rw [htg, List.append_nil]
      exact runCleanFixed_noop dirs_to_remove (run_clean fs).1 (run_clean_fixed_dead fs)
    have hclean : cleanTree (run_clean fs).1 = true :=
      cleanWalk_clean (".".toList) (runCleanFixed fs (cleanTargets fs)).1
    have hwalk := cleanWalk_noop (".".toList) (run_clean fs).1 hclean
    rw [run_clean_def ((run_clean fs).1), hstep3, hwalk]
    rfl
  · intro p hp hne hmem
    rcases List.mem_append.mp hmem with h1 | h2
    · exact runCleanFixed_skips _ fs p hne h1
    · obtain ⟨s, hs⟩ := cleanWalk_log (".".toList) _ p h2
      have h2c : p[1]? = some '/' := by
        rw [hs]
        show (('.' : Char) :: '/' :: s)[1]? = some '/'
        rw [List.getElem?_cons_succ, List.getElem?_cons_zero]
      have hall : ∀ q ∈ dirs_to_remove, ¬(q[1]? == some '/') = true := by decide
      exact hall p hp (by rw [h2c]; rfl)

/-- C9, witness on a small workspace. -/
theorem spec_C9_witness :
    run_clean (run_clean [Entry.dir ("build".toList) [], Entry.file ("notes.txt".toList)]).1 =
      ((run_clean [Entry.dir ("build".toList) [], Entry.file ("notes.txt".toList)]).1, []) ∧
    (".coverage".toList) ∉
      (run_clean [Entry.dir ("build".toList) [], Entry.file ("notes.txt".toList)]).2 :=
  ⟨(spec_C9 _).1, (spec_C9 _).2 (".coverage".toList) (by decide) (by decide)⟩

/-- C4, counterexample.  The claim appends every `.egg-info`-suffixed child
regardless of kind; the code (line 68) also requires `os.path.isdir`, so a
plain file named `a.egg-info` is not appended to the removal list. -/
theorem spec_C4_cex :
    (".egg-info".toList).isSuffixOf ("a.egg-info".toList) = true ∧
    isDirEntry (Entry.file ("a.egg-info".toList)) = false ∧
    ("a.egg-info".toList) ∉ cleanTargets [Entry.file ("a.egg-info".toList)] := by
  decide

/-- C4, amended: the fixed artifact list is extended with exactly those
immediate children of the working directory that end in `.egg-info` and are
directories; non-directory children are not appended. -/
theorem spec_C4_amended (fs : List Entry) (n : List Char) :
    n ∈ cleanTargets fs ↔
      (n ∈ dirs_to_remove ∨
        ((".egg-info".toList).isSuffixOf n = true ∧
          ∃ e ∈ fs, Entry.name e = n ∧ isDirEntry e = true)) := by
  rw [cleanTargets, List.mem_append]
  apply or_congr_right
  constructor
  · intro h
    rw [eggInfoDirs, List.mem_filter, Bool.and_eq_true] at h
    obtain ⟨hmap, hsuf, hdir⟩ := h
    refine ⟨hsuf, ?_⟩
    rw [pathIsDir, List.any_eq_true] at hdir
    obtain ⟨e, he, hm⟩ := hdir
    rw [splitSlash_eggInfo hsuf, Bool.and_eq_true, beq_iff_eq] at hm
    exact ⟨e, he, hm.1, hm.2⟩
  · rintro ⟨hsuf, e, he, hname, hdir⟩
    rw [eggInfoDirs, List.mem_filter]
    refine ⟨by rw [← hname]; exact List.mem_map_of_mem Entry.name he, ?_⟩
    rw [hsuf, Bool.true_and, pathIsDir, List.any_eq_true]
    exact ⟨e, he, by rw [splitSlash_eggInfo hsuf]; simp [hname, hdir]⟩

/-- C4 amended, witness: a directory child is appended. -/
theorem spec_C4_amended_witness :
    ("a.egg-info".toList) ∈ cleanTargets [Entry.dir ("a.egg-info".toList) []] :=
  (spec_C4_amended [Entry.dir ("a.egg-info".toList) []] ("a.egg-info".toList)).mpr
    (Or.inr ⟨by decide,
      Entry.dir ("a.egg-info".toList) [], List.mem_singleton.mpr rfl, rfl, rfl⟩)
